import Mathlib

/-!
Verification of the price-feeder oracle core (package `oracle`, `provider`,
`config`) against its specification.

Embedding conventions:
* `sdk.Dec` (the cosmos fixed-precision decimal) is modelled as `ℚ` with exact
  arithmetic; `time.Time` values are modelled as `ℤ` (Unix seconds, with
  `time.Unix(0,0)` as `0`); Go maps are modelled as association lists, looked
  up with `alookup`.
* `StandardDeviation` and `ComputeVWAP` are called by `convert.go` and
  `filter.go` but their bodies are not part of the focused sources; they are
  modelled from the spec (see their doc comments).
* The standard deviation σ = √variance is irrational in general, so the
  executable filter compares squares: `p ∈ [μ - T·σ, μ + T·σ]` is decided as
  `(p - μ)² ≤ T²·variance`, which is equivalent for `T ≥ 0` (proved in
  `isBetweenSq_eq_true_iff` against the source's real-valued `isBetween`).
-/

/-- `types.TickerPrice`: price, volume and observation time of one ticker. -/
structure TickerPrice where
  price : ℚ
  volume : ℚ
  time : ℤ
deriving DecidableEq

/-- `types.CurrencyPair`: a base/quote pair. -/
structure CurrencyPair where
  base : String
  quote : String
deriving DecidableEq

/-- `CurrencyPair.String()`; the spec defines `Symbol = Base ∥ Quote`. -/
def pairSymbol (p : CurrencyPair) : String := p.base ++ p.quote

/-- Association-list lookup, modelling Go map access `m[k]` (with `none` for a
missing key). -/
def alookup {α : Type} : List (String × α) → String → Option α
  | [], _ => none
  | e :: rest, k => if e.1 = k then some e.2 else alookup rest k

/-- Association-list assignment, modelling Go map assignment `m[k] = v`. -/
def aset {α : Type} : List (String × α) → String → α → List (String × α)
  | [], k, v => [(k, v)]
  | e :: rest, k, v => if e.1 = k then (k, v) :: rest else e :: aset rest k v

/-- Go map `ProviderName → TickerPrice` (one symbol's per-provider prices), or
`Symbol → TickerPrice` (one provider's prices). -/
abbrev SymbolTickers := List (String × TickerPrice)

/-- `provider.AggregatedProviderPrices`: provider name → symbol → ticker. -/
abbrev AggregatedProviderPrices := List (String × SymbolTickers)

/-- `usdRates` in `convertTickersToUSD`: base → provider → USD ticker. -/
abbrev UsdRates := List (String × SymbolTickers)

/-- Arithmetic mean of a list of decimals (`0` for the empty list, never used
with fewer than 3 entries). -/
def listMean (l : List ℚ) : ℚ := l.sum / l.length

/-- Population variance of a list of decimals. -/
def listVariance (l : List ℚ) : ℚ :=
  ((l.map (fun p => (p - listMean l) ^ 2)).sum) / l.length

/-- Modelled from the spec: `StandardDeviation` ("compute arithmetic mean μ and
population standard deviation σ of the prices", with "σ indeterminate with
< 3 samples" as the error case) is not among the focused sources. It is
modelled as returning `some (variance, mean)` when at least 3 prices are
given and `none` (error) otherwise; σ itself is `√variance`, carried here as
its square so the development stays inside `ℚ`. -/
def StandardDeviation (prices : List ℚ) : Option (ℚ × ℚ) :=
  if prices.length < 3 then none else some (listVariance prices, listMean prices)

/-- `defaultDeviationThreshold` from `filter.go`. -/
def defaultDeviationThreshold : ℚ := 1

/-- `isBetween` from `filter.go`: `p.GTE(mean.Sub(margin)) && p.LTE(mean.Add(margin))`,
stated over ℝ because the margin σ·T involves a square root. -/
def isBetween (p mean margin : ℝ) : Prop := mean - margin ≤ p ∧ p ≤ mean + margin

/-- Executable form of `isBetween` with margin `σ·T` given by its square
`marginSq = T²·variance`. -/
def isBetweenSq (p mean marginSq : ℚ) : Bool := decide ((p - mean) ^ 2 ≤ marginSq)

/-- `FilterTickerDeviations` from `filter.go`: drop providers whose price is
outside `[μ - T·σ, μ + T·σ]`; a `nil` threshold (missing config entry) falls
back to the default; on a standard-deviation error the original map is
returned together with the error (second component `true`). -/
def FilterTickerDeviations (tickerPrices : SymbolTickers)
    (deviationThreshold : Option ℚ) : SymbolTickers × Bool :=
  match StandardDeviation (tickerPrices.map (fun e => e.2.price)) with
  | none => (tickerPrices, true)
  | some (variance, mean) =>
      (tickerPrices.filter (fun e => isBetweenSq e.2.price mean
        ((deviationThreshold.getD defaultDeviationThreshold) ^ 2 * variance)), false)

/-- Modelled from the spec: `ComputeVWAP` ("VWAP = Σ(priceᵢ·volumeᵢ)/Σ(volumeᵢ)
over the surviving providers. If all volumes are zero, fall back to arithmetic
mean") is not among the focused sources; an empty input has no VWAP and is the
error case (`none`). -/
def ComputeVWAP (prices : List TickerPrice) : Option ℚ :=
  if prices.length = 0 then none
  else
    let volumeSum := (prices.map (fun t => t.volume)).sum
    if volumeSum = 0 then some ((prices.map (fun t => t.price)).sum / prices.length)
    else some ((prices.map (fun t => t.price * t.volume)).sum / volumeSum)

/-- `vwapRate` from `convert.go`: VWAP over the values of a provider map. -/
def vwapRate (rates : SymbolTickers) : Option ℚ :=
  ComputeVWAP (rates.map (fun e => e.2))

-- Auxiliary facts about the filter

theorem listVariance_nonneg (l : List ℚ) : 0 ≤ listVariance l := by
  unfold listVariance
  apply div_nonneg
  · apply List.sum_nonneg
    intro x hx
    obtain ⟨p, _, rfl⟩ := List.mem_map.mp hx
    exact sq_nonneg _
  · exact Nat.cast_nonneg _

theorem isBetweenSq_eq_true_iff (p mean t v : ℚ) (ht : 0 ≤ t) (hv : 0 ≤ v) :
    isBetweenSq p mean (t ^ 2 * v) = true ↔
      isBetween (p : ℝ) (mean : ℝ) ((t : ℝ) * Real.sqrt (v : ℝ)) := by
  have hv' : (0 : ℝ) ≤ (v : ℚ) := by exact_mod_cast hv
  have ht' : (0 : ℝ) ≤ (t : ℚ) := by exact_mod_cast ht
  have hmargin : (0 : ℝ) ≤ (t : ℝ) * Real.sqrt (v : ℝ) :=
    mul_nonneg ht' (Real.sqrt_nonneg _)
  unfold isBetweenSq isBetween
  rw [decide_eq_true_iff]
  have hcast : ((p - mean) ^ 2 ≤ t ^ 2 * v) ↔
      (((p : ℝ) - (mean : ℝ)) ^ 2 ≤ (t : ℝ) ^ 2 * (v : ℝ)) := by
    constructor <;> intro h <;> exact_mod_cast h
  rw [hcast]
  have hsq : ((t : ℝ) * Real.sqrt (v : ℝ)) ^ 2 = (t : ℝ) ^ 2 * (v : ℝ) := by
    rw [mul_pow, Real.sq_sqrt hv']
  constructor
  · intro h
    have habs : |(p : ℝ) - (mean : ℝ)| ≤ (t : ℝ) * Real.sqrt (v : ℝ) := by
      have h1 : Real.sqrt (((p : ℝ) - (mean : ℝ)) ^ 2) ≤
          Real.sqrt ((t : ℝ) ^ 2 * (v : ℝ)) := Real.sqrt_le_sqrt h
      rw [Real.sqrt_sq_eq_abs] at h1
      rw [← hsq, Real.sqrt_sq hmargin] at h1
      exact h1
    rw [abs_le] at habs
    constructor <;> linarith [habs.1, habs.2]
  · intro h
    have habs : |(p : ℝ) - (mean : ℝ)| ≤ (t : ℝ) * Real.sqrt (v : ℝ) := by
      rw [abs_le]
      constructor <;> linarith [h.1, h.2]
    calc ((p : ℝ) - (mean : ℝ)) ^ 2 = |(p : ℝ) - (mean : ℝ)| ^ 2 := (sq_abs _).symm
      _ ≤ ((t : ℝ) * Real.sqrt (v : ℝ)) ^ 2 := by
          exact pow_le_pow_left₀ (abs_nonneg _) habs 2
      _ = (t : ℝ) ^ 2 * (v : ℝ) := hsq

/-- C5: for a map of per-provider prices and a nonnegative threshold `T`, when
μ and σ are computable (at least 3 prices) the Deviation Filter returns, with
no error, exactly the providers whose price lies in `[μ - T·σ, μ + T·σ]`
(σ = √variance); when σ cannot be computed (fewer than 3 prices) it returns
the original map unchanged together with an error. -/
theorem filterTickerDeviations_spec (tp : SymbolTickers) (t : ℚ) (ht : 0 ≤ t) :
    (3 ≤ tp.length →
      (FilterTickerDeviations tp (some t)).2 = false ∧
      ∀ e, e ∈ (FilterTickerDeviations tp (some t)).1 ↔
        e ∈ tp ∧ isBetween (e.2.price : ℝ)
          ((listMean (tp.map (fun x => x.2.price)) : ℚ) : ℝ)
          ((t : ℝ) * Real.sqrt ((listVariance (tp.map (fun x => x.2.price)) : ℚ) : ℝ))) ∧
    (tp.length < 3 → FilterTickerDeviations tp (some t) = (tp, true)) := by
  constructor
  · intro h3
    have hlen : ¬ (tp.map (fun e => e.2.price)).length < 3 := by
      rw [List.length_map]; omega
    unfold FilterTickerDeviations StandardDeviation
    rw [if_neg hlen]
    refine ⟨rfl, ?_⟩
    intro e
    rw [List.mem_filter]
    simp only [Option.getD_some]
    rw [isBetweenSq_eq_true_iff e.2.price _ t _ ht
      (listVariance_nonneg (tp.map (fun x => x.2.price)))]
  · intro h3
    have hlen : (tp.map (fun e => e.2.price)).length < 3 := by
      rw [List.length_map]; omega
    unfold FilterTickerDeviations StandardDeviation
    rw [if_pos hlen]

/-- Witness for C5 at a concrete input. -/
theorem filterTickerDeviations_spec_witness :
    (0 : ℚ) ≤ 1 ∧
    ((3 ≤ ([("a", TickerPrice.mk 1 1 0), ("b", TickerPrice.mk 1 1 0),
        ("c", TickerPrice.mk 1 1 0)] : SymbolTickers).length →
      (FilterTickerDeviations [("a", TickerPrice.mk 1 1 0), ("b", TickerPrice.mk 1 1 0),
        ("c", TickerPrice.mk 1 1 0)] (some 1)).2 = false ∧
      ∀ e, e ∈ (FilterTickerDeviations [("a", TickerPrice.mk 1 1 0),
          ("b", TickerPrice.mk 1 1 0), ("c", TickerPrice.mk 1 1 0)] (some 1)).1 ↔
        e ∈ ([("a", TickerPrice.mk 1 1 0), ("b", TickerPrice.mk 1 1 0),
          ("c", TickerPrice.mk 1 1 0)] : SymbolTickers) ∧
        isBetween (e.2.price : ℝ)
          ((listMean (([("a", TickerPrice.mk 1 1 0), ("b", TickerPrice.mk 1 1 0),
            ("c", TickerPrice.mk 1 1 0)] : SymbolTickers).map (fun x => x.2.price)) : ℚ) : ℝ)
          (((1 : ℚ) : ℝ) * Real.sqrt ((listVariance (([("a", TickerPrice.mk 1 1 0),
            ("b", TickerPrice.mk 1 1 0),
            ("c", TickerPrice.mk 1 1 0)] : SymbolTickers).map (fun x => x.2.price)) : ℚ) : ℝ))) ∧
    (([("a", TickerPrice.mk 1 1 0), ("b", TickerPrice.mk 1 1 0),
        ("c", TickerPrice.mk 1 1 0)] : SymbolTickers).length < 3 →
      FilterTickerDeviations [("a", TickerPrice.mk 1 1 0), ("b", TickerPrice.mk 1 1 0),
        ("c", TickerPrice.mk 1 1 0)] (some 1) =
        ([("a", TickerPrice.mk 1 1 0), ("b", TickerPrice.mk 1 1 0),
          ("c", TickerPrice.mk 1 1 0)], true))) :=
  ⟨by norm_num,
   filterTickerDeviations_spec
     [("a", TickerPrice.mk 1 1 0), ("b", TickerPrice.mk 1 1 0), ("c", TickerPrice.mk 1 1 0)]
     1 (by norm_num)⟩

-- C6: idempotence of the deviation filter

/-- Concrete per-provider price map used to test the filter: prices 1, 2, 3
and an outlier 100, volume 1 each. -/
def devTP : SymbolTickers :=
  [("a", TickerPrice.mk 1 1 0), ("b", TickerPrice.mk 2 1 0),
   ("c", TickerPrice.mk 3 1 0), ("d", TickerPrice.mk 100 1 0)]

theorem devTP_first_application :
    FilterTickerDeviations devTP (some 1) =
      ([("a", TickerPrice.mk 1 1 0), ("b", TickerPrice.mk 2 1 0),
        ("c", TickerPrice.mk 3 1 0)], false) := by
  unfold FilterTickerDeviations StandardDeviation devTP
  norm_num [listMean, listVariance, isBetweenSq, List.filter]

theorem devTP_second_application :
    FilterTickerDeviations [("a", TickerPrice.mk 1 1 0), ("b", TickerPrice.mk 2 1 0),
        ("c", TickerPrice.mk 3 1 0)] (some 1) =
      ([("b", TickerPrice.mk 2 1 0)], false) := by
  unfold FilterTickerDeviations StandardDeviation
  norm_num [listMean, listVariance, isBetweenSq, List.filter]

/-- C6 counterexample: applying the Deviation Filter twice with the same
threshold 1 to the prices 1, 2, 3, 100 does not return the first
application's survivors: the first pass keeps providers a, b, c and the
second pass (recomputing μ = 2 and σ over the survivors) keeps only b. -/
theorem filter_not_idempotent :
    (FilterTickerDeviations (FilterTickerDeviations devTP (some 1)).1 (some 1)).1 ≠
      (FilterTickerDeviations devTP (some 1)).1 := by
  rw [devTP_first_application]
  simp only []
  rw [devTP_second_application]
  simp

theorem filterTickerDeviations_fst_subset (tp : SymbolTickers) (thr : Option ℚ) :
    (FilterTickerDeviations tp thr).1 ⊆ tp := by
  unfold FilterTickerDeviations
  cases StandardDeviation (tp.map (fun e => e.2.price)) with
  | none => exact fun a h => h
  | some p =>
      obtain ⟨v, m⟩ := p
      exact fun a ha => List.mem_of_mem_filter ha

/-- C6 amended: applying the Deviation Filter a second time with the same
threshold returns a subset (not necessarily the whole) of the first
application's survivors. -/
theorem filter_twice_subset (tp : SymbolTickers) (thr : Option ℚ) :
    (FilterTickerDeviations (FilterTickerDeviations tp thr).1 thr).1 ⊆
      (FilterTickerDeviations tp thr).1 :=
  filterTickerDeviations_fst_subset (FilterTickerDeviations tp thr).1 thr

-- Reordering of the pending pair list (convert.go, lines 62-84)

/-- Comparator of `sort.Slice(pairs, ...)`: ordering by `pairs[i].String()`. -/
def pairLE (a b : CurrencyPair) : Prop := pairSymbol a ≤ pairSymbol b

instance : DecidableRel pairLE := fun a b =>
  inferInstanceAs (Decidable (pairSymbol a ≤ pairSymbol b))

/-- The lexicographic sort of the pending pair list by `Symbol` (the symbols in
the pending list are distinct, so any sorting algorithm gives this result). -/
def sortPairs (pairs : List CurrencyPair) : List CurrencyPair :=
  List.insertionSort pairLE pairs

/-- The reorder loop of `convertTickersToUSD`: a pair whose Base already has a
`usdRates` entry is prepended to the accumulator, any other pair is appended. -/
def reorderFold (usdRates : UsdRates) : List CurrencyPair → List CurrencyPair → List CurrencyPair
  | [], acc => acc
  | pair :: rest, acc =>
      if (alookup usdRates pair.base).isSome then
        reorderFold usdRates rest (pair :: acc)
      else
        reorderFold usdRates rest (acc ++ [pair])

/-- The pair reordering at the start of each resolver pass: sort by symbol,
then run the prepend/append loop. -/
def reorderPairs (pairs : List CurrencyPair) (usdRates : UsdRates) : List CurrencyPair :=
  reorderFold usdRates (sortPairs pairs) []

/-- Modelled from the spec (the claim's wording, for comparison with
`reorderPairs`): sort lexicographically by symbol, then stably partition with
the pairs whose Base already has a `usdRates` entry first, preserving the
relative order inside each group. -/
def specStableReorder (pairs : List CurrencyPair) (usdRates : UsdRates) : List CurrencyPair :=
  (sortPairs pairs).filter (fun p => (alookup usdRates p.base).isSome) ++
    (sortPairs pairs).filter (fun p => !(alookup usdRates p.base).isSome)

theorem reorderFold_eq (usdRates : UsdRates) :
    ∀ (l acc : List CurrencyPair),
      reorderFold usdRates l acc =
        (l.filter (fun p => (alookup usdRates p.base).isSome)).reverse ++ acc ++
          l.filter (fun p => !(alookup usdRates p.base).isSome)
  | [], acc => by simp [reorderFold]
  | pair :: rest, acc => by
      unfold reorderFold
      by_cases h : (alookup usdRates pair.base).isSome
      · rw [if_pos h]
        rw [reorderFold_eq usdRates rest (pair :: acc)]
        have h2 : ¬ alookup usdRates pair.base = none := by
          simpa [Option.isSome_iff_ne_none] using h
        simp [List.filter_cons, h, h2]
      · rw [if_neg h]
        rw [reorderFold_eq usdRates rest (acc ++ [pair])]
        have h2 : alookup usdRates pair.base = none :=
          Option.not_isSome_iff_eq_none.mp h
        have h' : (alookup usdRates pair.base).isSome = false := by
          simpa using h
        simp [List.filter_cons, h', h2]

/-- C3 counterexample: with pending pairs AAA/USD and BBB/USD and `usdRates`
entries for both bases, the reorder places BBB/USD before AAA/USD — the
resolved group comes out in reverse lexicographic order, not the claimed
stable (lexicographic) order. -/
theorem reorder_not_stable :
    reorderPairs [CurrencyPair.mk "AAA" "USD", CurrencyPair.mk "BBB" "USD"]
        [("AAA", [("p", TickerPrice.mk 1 1 0)]), ("BBB", [("p", TickerPrice.mk 1 1 0)])] ≠
      specStableReorder [CurrencyPair.mk "AAA" "USD", CurrencyPair.mk "BBB" "USD"]
        [("AAA", [("p", TickerPrice.mk 1 1 0)]), ("BBB", [("p", TickerPrice.mk 1 1 0)])] := by
  simp [reorderPairs, specStableReorder, sortPairs, reorderFold, List.insertionSort,
    List.orderedInsert, pairLE, pairSymbol, alookup, List.filter]

/-- C3 amended: at the start of every resolver pass the pending pair list is
sorted lexicographically by Symbol and then reordered so that the pairs whose
Base already has a `usdRates` entry come first in REVERSE lexicographic
order, followed by the remaining pairs in lexicographic order. -/
theorem reorderPairs_eq (pairs : List CurrencyPair) (usdRates : UsdRates) :
    reorderPairs pairs usdRates =
      ((sortPairs pairs).filter (fun p => (alookup usdRates p.base).isSome)).reverse ++
        (sortPairs pairs).filter (fun p => !(alookup usdRates p.base).isSome) := by
  unfold reorderPairs
  rw [reorderFold_eq]
  simp

-- The cross-rate resolver (convertTickersToUSD, convert.go lines 17-219)

/-- Grouping step of `convertTickersToUSD` (lines 31-41): the per-provider
prices of one symbol, collected across all providers. -/
def bySymbol (providerPrices : AggregatedProviderPrices) (symbol : String) : SymbolTickers :=
  providerPrices.filterMap (fun e => (alookup e.2 symbol).map (fun t => (e.1, t)))

/-- Deduplication step of `convertTickersToUSD` (lines 43-54): the configured
pairs, one entry per distinct symbol. -/
def dedupPairs (providerPairs : List (String × List CurrencyPair)) : List CurrencyPair :=
  (providerPairs.foldl (fun st e =>
      e.2.foldl (fun (st : List String × List CurrencyPair) pair =>
        if pairSymbol pair ∈ st.1 then st
        else (pairSymbol pair :: st.1, st.2 ++ [pair])) st)
    (([], []) : List String × List CurrencyPair)).2

/-- `addRates` from `convert.go`: merge new per-provider USD rates into an
existing map, never overwriting an entry already present for a provider
(the earliest conversion hop wins). -/
def addRates (rates tickers : SymbolTickers) : SymbolTickers :=
  tickers.foldl (fun acc e => if (alookup acc e.1).isSome then acc else acc ++ [e]) rates

/-- The merge at lines 138-149 of `convert.go`: `usdRates[base]` is updated via
`addRates` only when the pass produced at least one new rate for the pair. -/
def mergeNewRates (usdRates : UsdRates) (base : String) (newRates : SymbolTickers) : UsdRates :=
  if newRates.length > 0 then
    aset usdRates base (addRates ((alookup usdRates base).getD []) newRates)
  else usdRates

/-- The body of the pass loop of `convertTickersToUSD` for one currency pair.
Result: updated `usdRates` paired with `true` when the pair was parked
(appended to `unresolved`); `Except.error` models the abort on a VWAP error. -/
def processPair (bySym : String → SymbolTickers) (thresholds : List (String × ℚ))
    (minOverrides : List (String × ℕ)) (usdRates : UsdRates) (pair : CurrencyPair) :
    Except Unit (UsdRates × Bool) :=
  if pair.quote = "USD" then
    .ok (mergeNewRates usdRates pair.base (bySym (pairSymbol pair)), false)
  else
    match alookup usdRates pair.quote with
    | none => .ok (usdRates, true)
    | some rates =>
        if rates.length < (alookup minOverrides pair.quote).getD 3 then
          .ok (usdRates, true)
        else
          let fr := FilterTickerDeviations rates (alookup thresholds pair.quote)
          if fr.2 ∧ 3 ≤ rates.length then .ok (usdRates, true)
          else
            match vwapRate fr.1 with
            | none => .error ()
            | some rate =>
                .ok (mergeNewRates usdRates pair.base
                  ((bySym (pairSymbol pair)).map (fun e =>
                    (e.1, TickerPrice.mk (e.2.price * rate) e.2.volume e.2.time))), false)

/-- One resolver pass over an (already reordered) pair list, carrying
`usdRates` and the accumulated `unresolved` list. -/
def runPass (bySym : String → SymbolTickers) (thresholds : List (String × ℚ))
    (minOverrides : List (String × ℕ)) :
    List CurrencyPair → UsdRates → List CurrencyPair →
      Except Unit (UsdRates × List CurrencyPair)
  | [], usdRates, unresolved => .ok (usdRates, unresolved)
  | pair :: rest, usdRates, unresolved =>
      match processPair bySym thresholds minOverrides usdRates pair with
      | .error e => .error e
      | .ok (usdRates', parked) =>
          runPass bySym thresholds minOverrides rest usdRates'
            (if parked then unresolved ++ [pair] else unresolved)

/-- The bounded pass loop of `convertTickersToUSD` (`maxConversions = 6`):
reorder, run a pass, stop when nothing is unresolved or no progress was made,
otherwise continue with the unresolved pairs. -/
def conversionLoop (bySym : String → SymbolTickers) (thresholds : List (String × ℚ))
    (minOverrides : List (String × ℕ)) :
    ℕ → List CurrencyPair → UsdRates → Except Unit UsdRates
  | 0, _, usdRates => .ok usdRates
  | fuel + 1, pairs, usdRates =>
      match runPass bySym thresholds minOverrides (reorderPairs pairs usdRates) usdRates [] with
      | .error e => .error e
      | .ok (usdRates', unresolved) =>
          if unresolved.length = 0 ∨
              unresolved.length = (reorderPairs pairs usdRates).length then .ok usdRates'
          else conversionLoop bySym thresholds minOverrides fuel unresolved usdRates'

/-- The final step of `convertTickersToUSD` (lines 164-216) for one base:
filter, honor the ProviderMinima escape on a filter error (no override means
the base is dropped), then VWAP with a zero rate or a VWAP error dropping the
base. `none` = the base is dropped from the output. -/
def finalVWAP (thresholds : List (String × ℚ)) (e : String × SymbolTickers) :
    Option (String × ℚ) :=
  match vwapRate (FilterTickerDeviations e.2 (alookup thresholds e.1)).1 with
  | none => none
  | some rate => if rate = 0 then none else some (e.1, rate)

def finalStepEntry (thresholds : List (String × ℚ)) (minOverrides : List (String × ℕ))
    (e : String × SymbolTickers) : Option (String × ℚ) :=
  if (FilterTickerDeviations e.2 (alookup thresholds e.1)).2 then
    match alookup minOverrides e.1 with
    | none => none
    | some minimum =>
        if (FilterTickerDeviations e.2 (alookup thresholds e.1)).1.length < minimum then none
        else finalVWAP thresholds e
  else finalVWAP thresholds e

/-- The final step over the whole `usdRates` map. -/
def finalStep (thresholds : List (String × ℚ)) (minOverrides : List (String × ℕ))
    (usdRates : UsdRates) : List (String × ℚ) :=
  usdRates.filterMap (finalStepEntry thresholds minOverrides)

/-- `convertTickersToUSD` from `convert.go`: `.error` models the `(nil, err)`
return, `.ok` the computed Base → USD map (the empty input returns the nil
map with no error). -/
def convertTickersToUSD (providerPrices : AggregatedProviderPrices)
    (providerPairs : List (String × List CurrencyPair))
    (deviationThresholds : List (String × ℚ))
    (providerMinOverrides : List (String × ℕ)) : Except Unit (List (String × ℚ)) :=
  if providerPrices.length = 0 then .ok []
  else
    match conversionLoop (bySymbol providerPrices) deviationThresholds
        providerMinOverrides 6 (dedupPairs providerPairs) [] with
    | .error e => .error e
    | .ok usdRates => .ok (finalStep deviationThresholds providerMinOverrides usdRates)

/-- `GetComputedPrices` from `convert.go`: a passthrough of
`convertTickersToUSD` (error propagated, rates returned unchanged). -/
def GetComputedPrices (providerPrices : AggregatedProviderPrices)
    (providerPairs : List (String × List CurrencyPair))
    (deviations : List (String × ℚ))
    (providerMinOverrides : List (String × ℕ)) : Except Unit (List (String × ℚ)) :=
  convertTickersToUSD providerPrices providerPairs deviations providerMinOverrides

/-- C10: with an empty aggregated provider price map, the price computation
returns no error and the empty (nil) Base → USD map, in both
`convertTickersToUSD` and its `GetComputedPrices` wrapper. -/
theorem convert_empty_prices (providerPairs : List (String × List CurrencyPair))
    (thresholds : List (String × ℚ)) (minOverrides : List (String × ℕ)) :
    convertTickersToUSD [] providerPairs thresholds minOverrides = .ok [] ∧
      GetComputedPrices [] providerPairs thresholds minOverrides = .ok [] := by
  constructor <;> rfl

-- C4: the ProviderMinima escape in the final step

theorem filterTickerDeviations_err (tp : SymbolTickers) (thr : Option ℚ)
    (h : (FilterTickerDeviations tp thr).2 = true) :
    (FilterTickerDeviations tp thr).1 = tp ∧ tp.length < 3 := by
  unfold FilterTickerDeviations StandardDeviation at h ⊢
  by_cases hlen : (tp.map (fun e => e.2.price)).length < 3
  · rw [if_pos hlen] at h ⊢
    rw [List.length_map] at hlen
    exact ⟨rfl, hlen⟩
  · rw [if_neg hlen] at h
    simp at h

theorem finalVWAP_key (thr : List (String × ℚ)) (e : String × SymbolTickers)
    (x : String × ℚ) (h : finalVWAP thr e = some x) : x.1 = e.1 := by
  unfold finalVWAP at h
  split at h
  · exact absurd h (by simp)
  · split at h
    · exact absurd h (by simp)
    · rw [Option.some_inj] at h
      rw [← h]

theorem finalStepEntry_key (thr : List (String × ℚ)) (mins : List (String × ℕ))
    (e : String × SymbolTickers) (x : String × ℚ)
    (h : finalStepEntry thr mins e = some x) : x.1 = e.1 := by
  unfold finalStepEntry at h
  split at h
  · split at h
    · exact absurd h (by simp)
    · split at h
      · exact absurd h (by simp)
      · exact finalVWAP_key thr e x h
  · exact finalVWAP_key thr e x h

theorem mem_map_fst_finalStep (thr : List (String × ℚ)) (mins : List (String × ℕ))
    (l : UsdRates) (denom : String) :
    denom ∈ (finalStep thr mins l).map (fun e => e.1) ↔
      ∃ e ∈ l, e.1 = denom ∧ (finalStepEntry thr mins e).isSome := by
  unfold finalStep
  rw [List.mem_map]
  constructor
  · rintro ⟨x, hx, rfl⟩
    obtain ⟨e, he, hfe⟩ := List.mem_filterMap.mp hx
    refine ⟨e, he, (finalStepEntry_key thr mins e x hfe).symm, ?_⟩
    rw [hfe]
    rfl
  · rintro ⟨e, he, hkey, hsome⟩
    obtain ⟨x, hx⟩ := Option.isSome_iff_exists.mp hsome
    refine ⟨x, List.mem_filterMap.mpr ⟨e, he, hx⟩, ?_⟩
    rw [finalStepEntry_key thr mins e x hx, hkey]

theorem list_sum_mem_le {l : List ℚ} (hnn : ∀ x ∈ l, 0 ≤ x) {x : ℚ} (hx : x ∈ l) :
    x ≤ l.sum :=
  List.single_le_sum hnn x hx

theorem computeVWAP_pos (prices : List TickerPrice) (hne : prices ≠ [])
    (hp : ∀ t ∈ prices, 0 < t.price) (hv : ∀ t ∈ prices, 0 ≤ t.volume) :
    ∃ r, ComputeVWAP prices = some r ∧ 0 < r := by
  have hlen : prices.length ≠ 0 := fun h => hne (List.length_eq_zero.mp h)
  have hlenpos : (0 : ℚ) < prices.length := by
    have := Nat.pos_of_ne_zero hlen
    exact_mod_cast this
  unfold ComputeVWAP
  rw [if_neg hlen]
  by_cases hz : (prices.map (fun t => t.volume)).sum = 0
  · rw [if_pos hz]
    refine ⟨_, rfl, ?_⟩
    apply div_pos
    · apply List.sum_pos
      · intro p hpm
        obtain ⟨t, ht, rfl⟩ := List.mem_map.mp hpm
        exact hp t ht
      · simpa using hne
    · exact hlenpos
  · rw [if_neg hz]
    refine ⟨_, rfl, ?_⟩
    have hvs_nonneg : (0 : ℚ) ≤ (prices.map (fun t => t.volume)).sum := by
      apply List.sum_nonneg
      intro x hx
      obtain ⟨t, ht, rfl⟩ := List.mem_map.mp hx
      exact hv t ht
    have hvs_pos : (0 : ℚ) < (prices.map (fun t => t.volume)).sum :=
      lt_of_le_of_ne hvs_nonneg (Ne.symm hz)
    apply div_pos ?_ hvs_pos
    -- some volume is positive, so some price*volume term is positive
    have hex : ∃ t ∈ prices, 0 < t.volume := by
      by_contra hno
      push_neg at hno
      have : (prices.map (fun t => t.volume)).sum ≤ 0 := by
        have : ∀ x ∈ prices.map (fun t => t.volume), x = 0 := by
          intro x hx
          obtain ⟨t, ht, rfl⟩ := List.mem_map.mp hx
          exact le_antisymm (hno t ht) (hv t ht)
        calc (prices.map (fun t => t.volume)).sum
            = ((prices.map (fun t => t.volume)).map id).sum := by simp
          _ ≤ 0 := by
              rw [List.sum_eq_zero (by simpa using this)]
      exact absurd (lt_of_lt_of_le hvs_pos this) (lt_irrefl 0)
    obtain ⟨t0, ht0, hv0⟩ := hex
    have hterm : 0 < t0.price * t0.volume := mul_pos (hp t0 ht0) hv0
    have hmem : t0.price * t0.volume ∈ prices.map (fun t => t.price * t.volume) :=
      List.mem_map.mpr ⟨t0, ht0, rfl⟩
    have hnn : ∀ x ∈ prices.map (fun t => t.price * t.volume), 0 ≤ x := by
      intro x hx
      obtain ⟨t, ht, rfl⟩ := List.mem_map.mp hx
      exact mul_nonneg (le_of_lt (hp t ht)) (hv t ht)
    exact lt_of_lt_of_le hterm (list_sum_mem_le hnn hmem)

theorem alookup_unique_of_nodup {α : Type} (l : List (String × α)) (k : String) (v : α)
    (hmem : (k, v) ∈ l) (hnodup : (l.map (fun e => e.1)).Nodup)
    {e : String × α} (he : e ∈ l) (hk : e.1 = k) : e = (k, v) := by
  induction l with
  | nil => cases hmem
  | cons hd tl ih =>
      rw [List.map_cons, List.nodup_cons] at hnodup
      rcases List.mem_cons.mp hmem with h1 | h1
      · rcases List.mem_cons.mp he with h2 | h2
        · rw [h2, h1]
        · exfalso
          apply hnodup.1
          rw [← h1]
          exact List.mem_map.mpr ⟨e, h2, hk⟩
      · rcases List.mem_cons.mp he with h2 | h2
        · exfalso
          apply hnodup.1
          rw [← h2, hk]
          exact List.mem_map.mpr ⟨(k, v), h1, rfl⟩
        · exact ih h1 hnodup.2 h2

/-- C4 amended: in the final step, for a base whose Deviation Filter
application errors (possible only with fewer than 3 tickers, the filter then
returning the tickers unchanged), and assuming positive prices, nonnegative
volumes and positive configured minima (all guaranteed by the data model and
configuration validation), the base is dropped iff the number of surviving
tickers is below the base's ProviderMinima; with no override configured the
base is always dropped, which coincides with the default minimum of 3 because
a filter error implies fewer than 3 survivors. Without the price-positivity
assumption the claim's "if and only if" fails (see the counterexample): a
base passing the minima gate can still be dropped by the zero-VWAP check. -/
theorem finalStep_minima_escape
    (usdRates : UsdRates) (thr : List (String × ℚ)) (mins : List (String × ℕ))
    (denom : String) (tickers : SymbolTickers)
    (hmem : (denom, tickers) ∈ usdRates)
    (hnodup : (usdRates.map (fun e => e.1)).Nodup)
    (hpos : ∀ e ∈ tickers, 0 < e.2.price)
    (hvol : ∀ e ∈ tickers, 0 ≤ e.2.volume)
    (hmin1 : ∀ m, alookup mins denom = some m → 1 ≤ m)
    (herr : (FilterTickerDeviations tickers (alookup thr denom)).2 = true) :
    denom ∈ (finalStep thr mins usdRates).map (fun e => e.1) ↔
      (alookup mins denom).getD 3 ≤
        (FilterTickerDeviations tickers (alookup thr denom)).1.length := by
  obtain ⟨hfeq, hlt3⟩ := filterTickerDeviations_err tickers (alookup thr denom) herr
  rw [mem_map_fst_finalStep]
  constructor
  · rintro ⟨e, he, hkey, hsome⟩
    have hee : e = (denom, tickers) :=
      alookup_unique_of_nodup usdRates denom tickers hmem hnodup he hkey
    subst hee
    unfold finalStepEntry at hsome
    dsimp only at hsome
    rw [if_pos herr] at hsome
    split at hsome
    · simp at hsome
    · rename_i minimum heq
      rw [heq, Option.getD_some]
      split at hsome
      · simp at hsome
      · rename_i hlm
        omega
  · intro hle
    refine ⟨(denom, tickers), hmem, rfl, ?_⟩
    unfold finalStepEntry
    dsimp only
    rw [if_pos herr]
    cases halo : alookup mins denom with
    | none =>
        exfalso
        rw [halo, Option.getD_none] at hle
        rw [hfeq] at hle
        omega
    | some m =>
        rw [halo, Option.getD_some] at hle
        dsimp only
        rw [if_neg (by omega)]
        have hm1 : 1 ≤ m := hmin1 m halo
        have hne : tickers ≠ [] := by
          intro hnil
          rw [hfeq, hnil] at hle
          simp at hle
          omega
        have hne' : tickers.map (fun e => e.2) ≠ [] := by
          simpa using hne
        obtain ⟨r, hr, hrpos⟩ := computeVWAP_pos (tickers.map (fun e => e.2)) hne'
          (by
            intro t ht
            obtain ⟨e, he2, rfl⟩ := List.mem_map.mp ht
            exact hpos e he2)
          (by
            intro t ht
            obtain ⟨e, he2, rfl⟩ := List.mem_map.mp ht
            exact hvol e he2)
        unfold finalVWAP vwapRate
        dsimp only
        rw [hfeq, hr]
        dsimp only
        rw [if_neg (ne_of_gt hrpos)]
        rfl

/-- C4 counterexample: base X has one ticker with price 0 and volume 1 (a
price the code really lets through, see C7), no deviation threshold and a
configured minimum of 1. The filter errors and the survivor count 1 is not
below the minimum 1, so the claim says X is kept — but the code drops X
because its VWAP is 0, refuting the claimed "if and only if". -/
theorem finalStep_minima_escape_cex :
    (FilterTickerDeviations [("p", TickerPrice.mk 0 1 0)]
        (alookup ([] : List (String × ℚ)) "X")).2 = true ∧
    (alookup [("X", 1)] "X").getD 3 ≤
      (FilterTickerDeviations [("p", TickerPrice.mk 0 1 0)]
        (alookup ([] : List (String × ℚ)) "X")).1.length ∧
    ¬ "X" ∈ (finalStep [] [("X", 1)]
        [("X", [("p", TickerPrice.mk 0 1 0)])]).map (fun e => e.1) := by
  refine ⟨rfl, ?_, ?_⟩
  · norm_num [alookup, FilterTickerDeviations, StandardDeviation]
  · norm_num [finalStep, finalStepEntry, finalVWAP, FilterTickerDeviations,
      StandardDeviation, vwapRate, ComputeVWAP, alookup, List.filterMap]

/-- Witness for C4 at a concrete input: base B with one positive-price ticker
and an override minimum of 1; the filter errors and B is kept since 1 ≤ 1. -/
theorem finalStep_minima_escape_witness :
    (("B", [("p1", TickerPrice.mk 2 1 0)]) ∈
        ([("B", [("p1", TickerPrice.mk 2 1 0)])] : UsdRates) ∧
      (FilterTickerDeviations [("p1", TickerPrice.mk 2 1 0)]
        (alookup ([] : List (String × ℚ)) "B")).2 = true) ∧
    ("B" ∈ (finalStep [] [("B", 1)]
        [("B", [("p1", TickerPrice.mk 2 1 0)])]).map (fun e => e.1) ↔
      (alookup [("B", 1)] "B").getD 3 ≤
        (FilterTickerDeviations [("p1", TickerPrice.mk 2 1 0)]
          (alookup ([] : List (String × ℚ)) "B")).1.length) :=
  ⟨⟨by simp, rfl⟩,
   finalStep_minima_escape [("B", [("p1", TickerPrice.mk 2 1 0)])] [] [("B", 1)]
     "B" [("p1", TickerPrice.mk 2 1 0)]
     (by simp)
     (by simp)
     (by
       intro e he
       simp at he
       rw [he]
       norm_num)
     (by
       intro e he
       simp at he
       rw [he]
       norm_num)
     (by
       intro m hm
       simp [alookup] at hm
       omega)
     rfl⟩

-- C7: tickers accepted into the aggregated provider price map (SetPrices)

/-- The Go zero value `types.TickerPrice{}` compared against in `SetPrices`. -/
def zeroTickerPrice : TickerPrice := TickerPrice.mk 0 0 0

/-- The `filteredPairs` loop of `Oracle.SetPrices` (lines 536-547): keep a pair
when its ticker is present and differs from the zero-value `TickerPrice{}`. -/
def filteredPairs (prices : SymbolTickers) (pairs : List CurrencyPair) : List CurrencyPair :=
  pairs.filter (fun pair =>
    match alookup prices (pairSymbol pair) with
    | none => false
    | some t => decide (t ≠ zeroTickerPrice))

/-- The merge loop of `Oracle.SetPrices` (lines 549-564) for one provider:
non-derivative tickers of the filtered pairs are entered into the aggregated
price map (derivative symbols are routed to the history store instead). -/
def collectProviderPrices (prices : SymbolTickers) (pairs : List CurrencyPair)
    (derivativeSymbols : List String) : SymbolTickers :=
  (filteredPairs prices pairs).filterMap (fun pair =>
    if pairSymbol pair ∈ derivativeSymbols then none
    else (alookup prices (pairSymbol pair)).map (fun t => (pairSymbol pair, t)))

/-- `ZeroProvider.Poll`: reports price 0, volume 1 and the current timestamp
for every configured symbol. -/
def ZeroProviderPoll (pairs : List CurrencyPair) (timestamp : ℤ) : SymbolTickers :=
  pairs.map (fun p => (pairSymbol p, TickerPrice.mk 0 1 timestamp))

/-- C7 counterexample: the tickers produced by `ZeroProvider.Poll` (price 0,
volume 1) are not the zero-value `TickerPrice{}`, so `SetPrices` merges them
into the aggregated provider price map even though their Price is 0. -/
theorem zero_price_ticker_accepted :
    ¬ ∀ e ∈ collectProviderPrices
        (ZeroProviderPoll [CurrencyPair.mk "ATOM" "USD"] 7)
        [CurrencyPair.mk "ATOM" "USD"] [], 0 < e.2.price := by
  intro hall
  have hmem : ("ATOMUSD", TickerPrice.mk 0 1 7) ∈ collectProviderPrices
      (ZeroProviderPoll [CurrencyPair.mk "ATOM" "USD"] 7)
      [CurrencyPair.mk "ATOM" "USD"] [] := by
    simp [collectProviderPrices, filteredPairs, ZeroProviderPoll, alookup,
      pairSymbol, zeroTickerPrice, List.filter, List.filterMap]
  have := hall _ hmem
  norm_num at this

/-- C7 amended: every ticker merged into the aggregated provider price map
differs from the zero-value `TickerPrice{}` (price 0, volume 0, zero time);
tickers with Price = 0 but a nonzero Volume or Time are accepted. -/
theorem collect_ne_zeroTicker (prices : SymbolTickers) (pairs : List CurrencyPair)
    (derivs : List String) :
    ∀ e ∈ collectProviderPrices prices pairs derivs, e.2 ≠ zeroTickerPrice := by
  intro e he
  unfold collectProviderPrices at he
  obtain ⟨pair, hp, hfm⟩ := List.mem_filterMap.mp he
  by_cases hd : pairSymbol pair ∈ derivs
  · rw [if_pos hd] at hfm
    simp at hfm
  · rw [if_neg hd] at hfm
    cases hlk : alookup prices (pairSymbol pair) with
    | none =>
        rw [hlk] at hfm
        simp at hfm
    | some t =>
        rw [hlk] at hfm
        rw [Option.map_some', Option.some_inj] at hfm
        unfold filteredPairs at hp
        rw [List.mem_filter] at hp
        have hp2 := hp.2
        rw [hlk] at hp2
        simp only [decide_eq_true_eq] at hp2
        rw [← hfm]
        exact hp2

/-- Witness for C7's amended theorem at a concrete input. -/
theorem collect_ne_zeroTicker_witness :
    (("AUSD", TickerPrice.mk 1 1 7) ∈ collectProviderPrices
        [("AUSD", TickerPrice.mk 1 1 7)] [CurrencyPair.mk "A" "USD"] []) ∧
      (TickerPrice.mk 1 1 7 ≠ zeroTickerPrice) :=
  ⟨by
    simp [collectProviderPrices, filteredPairs, alookup, pairSymbol,
      zeroTickerPrice, List.filter, List.filterMap],
   collect_ne_zeroTicker [("AUSD", TickerPrice.mk 1 1 7)] [CurrencyPair.mk "A" "USD"] []
     ("AUSD", TickerPrice.mk 1 1 7)
     (by
       simp [collectProviderPrices, filteredPairs, alookup, pairSymbol,
         zeroTickerPrice, List.filter, List.filterMap])⟩

-- The vote scheduler (Oracle.tick, convert.go lines 756-892)

/-- `PreviousPrevote` from `convert.go`. -/
structure PreviousPrevote where
  exchangeRates : String
  salt : String
  submitBlockHeight : ℤ
deriving DecidableEq

/-- The scheduler-owned part of the `Oracle` state: `previousVotePeriod` (a
time, `0` = `time.Unix(0,0)`) and the pending prevote. -/
structure OracleState where
  previousVotePeriod : ℤ
  previousPrevote : Option PreviousPrevote
deriving DecidableEq

/-- The per-tick inputs: the current time (`blockHeight := time.Now()`),
whether `SetPrices` succeeds, the canonical rates string
(`GenerateExchangeRatesString(o.GetPrices())`), the fresh random salt, and
whether `PutTx` succeeds. -/
structure TickInput where
  now : ℤ
  setPricesOk : Bool
  ratesStr : String
  salt : String
  putTxOk : Bool
deriving DecidableEq

/-- A payload handed to the Publisher (`oracleClient.PutTx`). -/
inductive Msg
  | prevote (hash feeder : String)
  | vote (salt exchangeRates feeder : String)
deriving DecidableEq

/-- The outcome of one tick: next scheduler state, payloads handed to the
Publisher, whether the price-setting step (`SetPrices`) was invoked, and
whether `vote.failure.missed` was counted. -/
structure TickResult where
  state : OracleState
  msgs : List Msg
  collectedPrices : Bool
  missedIncr : Bool
deriving DecidableEq

/-- `GetAggregateVoteHash`: the truncated digest (`tmhash.NewTruncated`, an
external library modelled as the abstract `digest` argument) of
`fmt.Sprintf("%s:%s:%s", salt, exchangeRatesStr, voter)`. -/
def GetAggregateVoteHash (digest : String → String)
    (salt exchangeRatesStr voter : String) : String :=
  digest (salt ++ ":" ++ exchangeRatesStr ++ ":" ++ voter)

/-- `Oracle.tick`: `P` is `oracleClient.VotePeriod`, `feeder` the operator
account string. In order: the skip-until-next-window check (before
`SetPrices`), `SetPrices` (an error aborts the tick), the missed-vote check,
then prevote (when no prevote is pending) or vote (when one is); a `PutTx`
failure leaves the state unchanged. -/
def tick (digest : String → String) (feeder : String) (P : ℤ)
    (s : OracleState) (i : TickInput) : TickResult :=
  if s.previousVotePeriod ≠ 0 ∧ s.previousVotePeriod + P > i.now then
    TickResult.mk s [] false false
  else if i.setPricesOk = false then
    TickResult.mk s [] true false
  else if s.previousVotePeriod ≠ 0 ∧ s.previousVotePeriod + P + P < i.now then
    TickResult.mk (OracleState.mk 0 none) [] true true
  else
    match s.previousPrevote with
    | none =>
        if i.putTxOk then
          TickResult.mk
            (OracleState.mk i.now (some (PreviousPrevote.mk i.ratesStr i.salt i.now)))
            [Msg.prevote (GetAggregateVoteHash digest i.salt i.ratesStr feeder) feeder]
            true false
        else
          TickResult.mk s
            [Msg.prevote (GetAggregateVoteHash digest i.salt i.ratesStr feeder) feeder]
            true false
    | some pp =>
        if i.putTxOk then
          TickResult.mk (OracleState.mk 0 none)
            [Msg.vote pp.salt pp.exchangeRates feeder] true false
        else
          TickResult.mk s [Msg.vote pp.salt pp.exchangeRates feeder] true false

/-- A run of consecutive ticks, returning the final state. -/
def tickFoldState (digest : String → String) (feeder : String) (P : ℤ)
    (s : OracleState) : List TickInput → OracleState
  | [] => s
  | i :: rest => tickFoldState digest feeder P (tick digest feeder P s i).state rest

/-- All ticks of the run hand nothing to the Publisher. -/
def SilentRun (digest : String → String) (feeder : String) (P : ℤ)
    (s : OracleState) : List TickInput → Prop
  | [] => True
  | i :: rest => (tick digest feeder P s i).msgs = [] ∧
      SilentRun digest feeder P (tick digest feeder P s i).state rest

theorem tick_cases (digest : String → String) (feeder : String) (P : ℤ)
    (s : OracleState) (i : TickInput) :
    (tick digest feeder P s i = TickResult.mk s [] false false) ∨
    (tick digest feeder P s i = TickResult.mk s [] true false) ∨
    (tick digest feeder P s i = TickResult.mk (OracleState.mk 0 none) [] true true) ∨
    (s.previousPrevote = none ∧
      (tick digest feeder P s i = TickResult.mk
          (OracleState.mk i.now (some (PreviousPrevote.mk i.ratesStr i.salt i.now)))
          [Msg.prevote (GetAggregateVoteHash digest i.salt i.ratesStr feeder) feeder]
          true false ∨
       tick digest feeder P s i = TickResult.mk s
          [Msg.prevote (GetAggregateVoteHash digest i.salt i.ratesStr feeder) feeder]
          true false)) ∨
    (∃ pp, s.previousPrevote = some pp ∧
      (tick digest feeder P s i = TickResult.mk (OracleState.mk 0 none)
          [Msg.vote pp.salt pp.exchangeRates feeder] true false ∨
       tick digest feeder P s i = TickResult.mk s
          [Msg.vote pp.salt pp.exchangeRates feeder] true false)) := by
  unfold tick
  split
  · exact Or.inl rfl
  · split
    · exact Or.inr (Or.inl rfl)
    · split
      · exact Or.inr (Or.inr (Or.inl rfl))
      · split
        · rename_i heq
          split
          · exact Or.inr (Or.inr (Or.inr (Or.inl ⟨heq, Or.inl rfl⟩)))
          · exact Or.inr (Or.inr (Or.inr (Or.inl ⟨heq, Or.inr rfl⟩)))
        · rename_i pp heq
          split
          · exact Or.inr (Or.inr (Or.inr (Or.inr ⟨pp, heq, Or.inl rfl⟩)))
          · exact Or.inr (Or.inr (Or.inr (Or.inr ⟨pp, heq, Or.inr rfl⟩)))

theorem tick_silent_state (digest : String → String) (feeder : String) (P : ℤ)
    (s : OracleState) (i : TickInput)
    (hmsg : (tick digest feeder P s i).msgs = []) :
    (tick digest feeder P s i).state = s ∨
      (tick digest feeder P s i).state = OracleState.mk 0 none := by
  rcases tick_cases digest feeder P s i with h | h | h | ⟨_, h | h⟩ | ⟨pp, _, h | h⟩ <;>
    rw [h] <;> rw [h] at hmsg <;> first
      | exact Or.inl rfl
      | exact Or.inr rfl
      | simp at hmsg

theorem tick_prevote_inv (digest : String → String) (feeder : String) (P : ℤ)
    (s : OracleState) (i : TickInput) (h f : String)
    (hmsg : (tick digest feeder P s i).msgs = [Msg.prevote h f]) :
    h = GetAggregateVoteHash digest i.salt i.ratesStr feeder ∧ f = feeder ∧
      ((tick digest feeder P s i).state.previousPrevote = none ∨
       (tick digest feeder P s i).state.previousPrevote =
         some (PreviousPrevote.mk i.ratesStr i.salt i.now)) := by
  rcases tick_cases digest feeder P s i with hc | hc | hc | ⟨hnone, hc | hc⟩ |
      ⟨pp, hsome, hc | hc⟩ <;> rw [hc] at hmsg ⊢ <;> simp at hmsg ⊢
  · exact ⟨hmsg.1.symm, hmsg.2.symm⟩
  · refine ⟨hmsg.1.symm, hmsg.2.symm, ?_⟩
    exact Or.inl hnone

theorem tick_vote_reveals (digest : String → String) (feeder : String) (P : ℤ)
    (s : OracleState) (i : TickInput) (salt rates f : String)
    (hmsg : (tick digest feeder P s i).msgs = [Msg.vote salt rates f]) :
    ∃ pp, s.previousPrevote = some pp ∧ salt = pp.salt ∧
      rates = pp.exchangeRates ∧ f = feeder := by
  rcases tick_cases digest feeder P s i with hc | hc | hc | ⟨hnone, hc | hc⟩ |
      ⟨pp, hsome, hc | hc⟩ <;> rw [hc] at hmsg <;> simp at hmsg
  · exact ⟨pp, hsome, hmsg.1.symm, hmsg.2.1.symm, hmsg.2.2.symm⟩
  · exact ⟨pp, hsome, hmsg.1.symm, hmsg.2.1.symm, hmsg.2.2.symm⟩

theorem silentRun_prevote_cases (digest : String → String) (feeder : String) (P : ℤ) :
    ∀ (mids : List TickInput) (s : OracleState) (pp₀ : PreviousPrevote),
      (s.previousPrevote = some pp₀ ∨ s.previousPrevote = none) →
      SilentRun digest feeder P s mids →
      ((tickFoldState digest feeder P s mids).previousPrevote = some pp₀ ∨
       (tickFoldState digest feeder P s mids).previousPrevote = none)
  | [], s, pp₀, hR, _ => hR
  | i :: rest, s, pp₀, hR, hsil => by
      unfold SilentRun at hsil
      unfold tickFoldState
      apply silentRun_prevote_cases digest feeder P rest _ pp₀ ?_ hsil.2
      rcases tick_silent_state digest feeder P s i hsil.1 with hst | hst
      · rw [hst]
        exact hR
      · rw [hst]
        exact Or.inr rfl

/-- C1: when a tick publishes a Prevote carrying hash `h`, and a later tick —
after any number of intervening ticks that publish nothing — publishes the
corresponding Vote revealing `(salt, rates)`, then `h` equals the truncated
digest of "salt:exchange_rates:feeder" built from exactly the revealed salt
and rates, for the same feeder account. -/
theorem prevote_vote_hash_binding
    (digest : String → String) (feeder : String) (P : ℤ)
    (s : OracleState) (i0 : TickInput) (mids : List TickInput) (j : TickInput)
    (h f salt rates f' : String)
    (hprev : (tick digest feeder P s i0).msgs = [Msg.prevote h f])
    (hsilent : SilentRun digest feeder P (tick digest feeder P s i0).state mids)
    (hvote : (tick digest feeder P
        (tickFoldState digest feeder P (tick digest feeder P s i0).state mids) j).msgs =
      [Msg.vote salt rates f']) :
    h = GetAggregateVoteHash digest salt rates feeder ∧ f = feeder ∧ f' = feeder := by
  obtain ⟨hh, hf, hstate⟩ := tick_prevote_inv digest feeder P s i0 h f hprev
  have hR : ((tick digest feeder P s i0).state.previousPrevote =
        some (PreviousPrevote.mk i0.ratesStr i0.salt i0.now) ∨
      (tick digest feeder P s i0).state.previousPrevote = none) := by
    rcases hstate with h1 | h1
    · exact Or.inr h1
    · exact Or.inl h1
  have hfold := silentRun_prevote_cases digest feeder P mids
    (tick digest feeder P s i0).state (PreviousPrevote.mk i0.ratesStr i0.salt i0.now)
    hR hsilent
  obtain ⟨pp, hpp, hsalt, hrates, hf'⟩ :=
    tick_vote_reveals digest feeder P _ j salt rates f' hvote
  rcases hfold with hcase | hcase
  · rw [hpp] at hcase
    rw [Option.some_inj] at hcase
    refine ⟨?_, hf, hf'⟩
    rw [hh, hsalt, hrates, hcase]
  · rw [hpp] at hcase
    cases hcase

/-- Witness for C1: a concrete prevote at t = 10 followed directly by the
vote at t = 16 with vote period 5. -/
theorem prevote_vote_hash_binding_witness :
    ((tick (fun x => x) "f" 5 (OracleState.mk 0 none)
        (TickInput.mk 10 true "r" "sa" true)).msgs = [Msg.prevote "sa:r:f" "f"] ∧
      SilentRun (fun x => x) "f" 5
        (tick (fun x => x) "f" 5 (OracleState.mk 0 none)
          (TickInput.mk 10 true "r" "sa" true)).state [] ∧
      (tick (fun x => x) "f" 5
        (tickFoldState (fun x => x) "f" 5
          (tick (fun x => x) "f" 5 (OracleState.mk 0 none)
            (TickInput.mk 10 true "r" "sa" true)).state [])
        (TickInput.mk 16 true "r2" "sb" true)).msgs = [Msg.vote "sa" "r" "f"]) ∧
    ("sa:r:f" = GetAggregateVoteHash (fun x => x) "sa" "r" "f" ∧
      "f" = "f" ∧ "f" = "f") :=
  ⟨⟨by decide, trivial, by decide⟩,
   prevote_vote_hash_binding (fun x => x) "f" 5 (OracleState.mk 0 none)
     (TickInput.mk 10 true "r" "sa" true) [] (TickInput.mk 16 true "r2" "sb" true)
     "sa:r:f" "f" "sa" "r" "f" (by decide) trivial (by decide)⟩

/-- C2 counterexample: with a prevote pending since t = 10, vote period 5 and
a tick at t = 14 (inside the window), the tick publishes nothing and leaves
the state unchanged but does NOT run the price-setting step: `Oracle.tick`
returns before `o.SetPrices(ctx)` in the skip branch, refuting the claim's
"collects prices" conjunct. -/
theorem tick_during_window_cex :
    ¬ ((tick (fun x => x) "f" 5
          (OracleState.mk 10 (some (PreviousPrevote.mk "r" "sa" 10)))
          (TickInput.mk 14 true "r2" "sb" true)).collectedPrices = true ∧
       (tick (fun x => x) "f" 5
          (OracleState.mk 10 (some (PreviousPrevote.mk "r" "sa" 10)))
          (TickInput.mk 14 true "r2" "sb" true)).msgs = [] ∧
       (tick (fun x => x) "f" 5
          (OracleState.mk 10 (some (PreviousPrevote.mk "r" "sa" 10)))
          (TickInput.mk 14 true "r2" "sb" true)).state =
         OracleState.mk 10 (some (PreviousPrevote.mk "r" "sa" 10))) := by
  decide

/-- C2 amended: for every tick arriving while a prevote is pending and before
the current vote window's end, the scheduler publishes nothing and keeps its
state (pending prevote and window start) unchanged, and it does NOT collect
prices: the skip branch returns before the price-setting step runs. -/
theorem tick_during_window (digest : String → String) (feeder : String) (P : ℤ)
    (s : OracleState) (i : TickInput) (pp : PreviousPrevote)
    (_hpend : s.previousPrevote = some pp)
    (hpvp : s.previousVotePeriod ≠ 0)
    (hwin : i.now < s.previousVotePeriod + P) :
    tick digest feeder P s i = TickResult.mk s [] false false := by
  unfold tick
  rw [if_pos ⟨hpvp, by omega⟩]

/-- Witness for C2's amended theorem at the concrete counterexample input. -/
theorem tick_during_window_witness :
    ((OracleState.mk 10 (some (PreviousPrevote.mk "r" "sa" 10))).previousPrevote =
        some (PreviousPrevote.mk "r" "sa" 10) ∧
      (OracleState.mk 10 (some (PreviousPrevote.mk "r" "sa" 10))).previousVotePeriod ≠ 0 ∧
      (TickInput.mk 14 true "r2" "sb" true).now <
        (OracleState.mk 10 (some (PreviousPrevote.mk "r" "sa" 10))).previousVotePeriod + 5) ∧
    tick (fun x => x) "f" 5 (OracleState.mk 10 (some (PreviousPrevote.mk "r" "sa" 10)))
        (TickInput.mk 14 true "r2" "sb" true) =
      TickResult.mk (OracleState.mk 10 (some (PreviousPrevote.mk "r" "sa" 10))) [] false false :=
  ⟨⟨rfl, by decide, by decide⟩,
   tick_during_window (fun x => x) "f" 5
     (OracleState.mk 10 (some (PreviousPrevote.mk "r" "sa" 10)))
     (TickInput.mk 14 true "r2" "sb" true) (PreviousPrevote.mk "r" "sa" 10)
     rfl (by decide) (by decide)⟩

/-- C8: for every tick arriving while a prevote is pending and strictly more
than two vote periods after the prevote's window start (past the end of the
next vote window), provided the price-setting step succeeds, the scheduler
discards the pending prevote, counts `vote.failure.missed`, returns to Idle
(`previousVotePeriod = 0`, no pending prevote) and publishes no payload — in
particular neither the stale salt nor the stale rates. -/
theorem tick_missed_vote (digest : String → String) (feeder : String) (P : ℤ)
    (s : OracleState) (i : TickInput) (pp : PreviousPrevote)
    (_hpend : s.previousPrevote = some pp)
    (hpvp : s.previousVotePeriod ≠ 0)
    (hP : 0 < P)
    (hlate : s.previousVotePeriod + 2 * P < i.now)
    (hsp : i.setPricesOk = true) :
    tick digest feeder P s i =
      TickResult.mk (OracleState.mk 0 none) [] true true := by
  unfold tick
  rw [if_neg (by
    intro hc
    omega)]
  rw [if_neg (by simp [hsp])]
  rw [if_pos ⟨hpvp, by omega⟩]

/-- Witness for C8: prevote pending since t = 10, vote period 5, tick at
t = 21 > 20 = 10 + 2·5. -/
theorem tick_missed_vote_witness :
    ((OracleState.mk 10 (some (PreviousPrevote.mk "r" "sa" 10))).previousPrevote =
        some (PreviousPrevote.mk "r" "sa" 10) ∧
      (OracleState.mk 10 (some (PreviousPrevote.mk "r" "sa" 10))).previousVotePeriod ≠ 0 ∧
      (0 : ℤ) < 5 ∧
      (OracleState.mk 10 (some (PreviousPrevote.mk "r" "sa" 10))).previousVotePeriod +
        2 * 5 < (TickInput.mk 21 true "r2" "sb" true).now ∧
      (TickInput.mk 21 true "r2" "sb" true).setPricesOk = true) ∧
    tick (fun x => x) "f" 5 (OracleState.mk 10 (some (PreviousPrevote.mk "r" "sa" 10)))
        (TickInput.mk 21 true "r2" "sb" true) =
      TickResult.mk (OracleState.mk 0 none) [] true true :=
  ⟨⟨rfl, by decide, by decide, by decide, rfl⟩,
   tick_missed_vote (fun x => x) "f" 5
     (OracleState.mk 10 (some (PreviousPrevote.mk "r" "sa" 10)))
     (TickInput.mk 21 true "r2" "sb" true) (PreviousPrevote.mk "r" "sa" 10)
     rfl (by decide) (by decide) (by decide) rfl⟩

-- C9: effect of adding one provider ticker on the resolver output

theorem bySymbol_append_single (pp : AggregatedProviderPrices) (q sym : String)
    (t : TickerPrice) (s : String) (hs : s ≠ sym) :
    bySymbol (pp ++ [(q, [(sym, t)])]) s = bySymbol pp s := by
  unfold bySymbol
  rw [List.filterMap_append]
  have : List.filterMap
      (fun e => (alookup e.2 s).map (fun t => (e.1, t))) [(q, [(sym, t)])] = [] := by
    simp [alookup, Ne.symm hs]
  rw [this, List.append_nil]

theorem processPair_congr (bySym₁ bySym₂ : String → SymbolTickers)
    (thr : List (String × ℚ)) (mins : List (String × ℕ)) (u : UsdRates)
    (pair : CurrencyPair) (h : bySym₁ (pairSymbol pair) = bySym₂ (pairSymbol pair)) :
    processPair bySym₁ thr mins u pair = processPair bySym₂ thr mins u pair := by
  unfold processPair
  rw [h]

theorem runPass_congr (bySym₁ bySym₂ : String → SymbolTickers)
    (thr : List (String × ℚ)) (mins : List (String × ℕ)) :
    ∀ (pairs : List CurrencyPair) (u : UsdRates) (acc : List CurrencyPair),
      (∀ p ∈ pairs, bySym₁ (pairSymbol p) = bySym₂ (pairSymbol p)) →
      runPass bySym₁ thr mins pairs u acc = runPass bySym₂ thr mins pairs u acc
  | [], u, acc, _ => rfl
  | pair :: rest, u, acc, h => by
      unfold runPass
      rw [processPair_congr bySym₁ bySym₂ thr mins u pair (h pair (by simp))]
      cases processPair bySym₂ thr mins u pair with
      | error e => rfl
      | ok res =>
          obtain ⟨u', parked⟩ := res
          exact runPass_congr bySym₁ bySym₂ thr mins rest u' _
            (fun p hp => h p (List.mem_cons_of_mem pair hp))

theorem runPass_unresolved_mem (bySym : String → SymbolTickers)
    (thr : List (String × ℚ)) (mins : List (String × ℕ)) :
    ∀ (pairs : List CurrencyPair) (u : UsdRates) (acc : List CurrencyPair)
      (u' : UsdRates) (unres : List CurrencyPair),
      runPass bySym thr mins pairs u acc = .ok (u', unres) →
      ∀ x ∈ unres, x ∈ acc ∨ x ∈ pairs
  | [], u, acc, u', unres, hrun => by
      unfold runPass at hrun
      rw [Except.ok.injEq, Prod.mk.injEq] at hrun
      intro x hx
      rw [← hrun.2] at hx
      exact Or.inl hx
  | pair :: rest, u, acc, u', unres, hrun => by
      unfold runPass at hrun
      cases hp : processPair bySym thr mins u pair with
      | error e =>
          rw [hp] at hrun
          cases hrun
      | ok res =>
          rw [hp] at hrun
          obtain ⟨u₁, parked⟩ := res
          intro x hx
          have := runPass_unresolved_mem bySym thr mins rest u₁
            (if parked then acc ++ [pair] else acc) u' unres hrun x hx
          rcases this with h1 | h1
          · cases parked with
            | true =>
                rw [if_pos rfl] at h1
                rcases List.mem_append.mp h1 with h2 | h2
                · exact Or.inl h2
                · rw [List.mem_singleton] at h2
                  exact Or.inr (by rw [h2]; simp)
            | false =>
                rw [if_neg (by simp)] at h1
                exact Or.inl h1
          · exact Or.inr (List.mem_cons_of_mem pair h1)

theorem mem_reorderPairs (pairs : List CurrencyPair) (u : UsdRates)
    (x : CurrencyPair) (h : x ∈ reorderPairs pairs u) : x ∈ pairs := by
  unfold reorderPairs at h
  rw [reorderFold_eq] at h
  have hsort : x ∈ sortPairs pairs := by
    rcases List.mem_append.mp h with h1 | h1
    · rcases List.mem_append.mp h1 with h2 | h2
      · exact List.mem_of_mem_filter (List.mem_reverse.mp h2)
      · cases h2
    · exact List.mem_of_mem_filter h1
  exact (List.perm_insertionSort pairLE pairs).mem_iff.mp hsort

theorem conversionLoop_congr (bySym₁ bySym₂ : String → SymbolTickers)
    (thr : List (String × ℚ)) (mins : List (String × ℕ)) :
    ∀ (fuel : ℕ) (pairs : List CurrencyPair) (u : UsdRates),
      (∀ p ∈ pairs, bySym₁ (pairSymbol p) = bySym₂ (pairSymbol p)) →
      conversionLoop bySym₁ thr mins fuel pairs u =
        conversionLoop bySym₂ thr mins fuel pairs u
  | 0, pairs, u, _ => rfl
  | fuel + 1, pairs, u, h => by
      unfold conversionLoop
      have hord : ∀ p ∈ reorderPairs pairs u, bySym₁ (pairSymbol p) = bySym₂ (pairSymbol p) :=
        fun p hp => h p (mem_reorderPairs pairs u p hp)
      rw [runPass_congr bySym₁ bySym₂ thr mins (reorderPairs pairs u) u [] hord]
      cases hrun : runPass bySym₂ thr mins (reorderPairs pairs u) u [] with
      | error e => rfl
      | ok res =>
          obtain ⟨u', unres⟩ := res
          dsimp only
          by_cases hstop : unres.length = 0 ∨ unres.length = (reorderPairs pairs u).length
          · rw [if_pos hstop, if_pos hstop]
          · rw [if_neg hstop, if_neg hstop]
            apply conversionLoop_congr bySym₁ bySym₂ thr mins fuel unres u'
            intro p hp
            have := runPass_unresolved_mem bySym₂ thr mins (reorderPairs pairs u) u [] u'
              unres hrun p hp
            rcases this with h1 | h1
            · cases h1
            · exact hord p h1

/-- C9 amended: adding one provider ticker whose symbol matches no configured
currency pair never removes a previously-present base from the resolver
output (the output is in fact unchanged); for a ticker of a configured symbol
the property fails, see the counterexample. -/
theorem convert_add_unconfigured_ticker
    (pp : AggregatedProviderPrices) (ppairs : List (String × List CurrencyPair))
    (thr : List (String × ℚ)) (mins : List (String × ℕ))
    (q sym : String) (t : TickerPrice) (base : String) (r : List (String × ℚ))
    (hsym : ∀ p ∈ dedupPairs ppairs, pairSymbol p ≠ sym)
    (hout : convertTickersToUSD pp ppairs thr mins = .ok r)
    (hbase : base ∈ r.map (fun e => e.1)) :
    ∃ r', convertTickersToUSD (pp ++ [(q, [(sym, t)])]) ppairs thr mins = .ok r' ∧
      base ∈ r'.map (fun e => e.1) := by
  by_cases hpp : pp.length = 0
  · exfalso
    unfold convertTickersToUSD at hout
    rw [if_pos hpp] at hout
    rw [Except.ok.injEq] at hout
    rw [← hout] at hbase
    cases hbase
  · refine ⟨r, ?_, hbase⟩
    unfold convertTickersToUSD at hout ⊢
    rw [if_neg hpp] at hout
    have hlen2 : ¬ (pp ++ [(q, [(sym, t)])]).length = 0 := by
      rw [List.length_append]
      simp
    rw [if_neg hlen2]
    have hcong := conversionLoop_congr (bySymbol (pp ++ [(q, [(sym, t)])])) (bySymbol pp)
      thr mins 6 (dedupPairs ppairs) []
      (fun p hp => bySymbol_append_single pp q sym t (pairSymbol p) (hsym p hp))
    rw [hcong]
    exact hout

/-- C9 counterexample: providers p1, p2, p3 report B/USD = 1 (volume 1) and
the deviation threshold for B is 1/2; the output contains B = 1. Adding one
more provider ticker B/USD = 2 shifts μ to 5/4 and σ² to 3/16, the final
deviation filter then rejects every provider of B (margin σ/2), the VWAP of
the empty survivor set fails, and B disappears from the output — adding a
ticker removed a previously-present base. -/
theorem convert_add_ticker_cex :
    convertTickersToUSD
        [("p1", [("BUSD", TickerPrice.mk 1 1 0)]),
         ("p2", [("BUSD", TickerPrice.mk 1 1 0)]),
         ("p3", [("BUSD", TickerPrice.mk 1 1 0)])]
        [("p1", [CurrencyPair.mk "B" "USD"]),
         ("p2", [CurrencyPair.mk "B" "USD"]),
         ("p3", [CurrencyPair.mk "B" "USD"])]
        [("B", 1/2)] [] = .ok [("B", 1)] ∧
    convertTickersToUSD
        [("p1", [("BUSD", TickerPrice.mk 1 1 0)]),
         ("p2", [("BUSD", TickerPrice.mk 1 1 0)]),
         ("p3", [("BUSD", TickerPrice.mk 1 1 0)]),
         ("p4", [("BUSD", TickerPrice.mk 2 1 0)])]
        [("p1", [CurrencyPair.mk "B" "USD"]),
         ("p2", [CurrencyPair.mk "B" "USD"]),
         ("p3", [CurrencyPair.mk "B" "USD"])]
        [("B", 1/2)] [] = .ok [] := by
  constructor <;>
    norm_num +decide [convertTickersToUSD, conversionLoop, runPass, processPair,
      mergeNewRates, addRates, reorderPairs, reorderFold, sortPairs, List.insertionSort,
      List.orderedInsert, pairLE, pairSymbol, dedupPairs, bySymbol, alookup, aset,
      FilterTickerDeviations, StandardDeviation, listMean, listVariance, isBetweenSq,
      vwapRate, ComputeVWAP, finalStep, finalStepEntry, finalVWAP, List.filterMap,
      List.filter]

/-- Witness for C9's amended theorem: one provider of B/USD with an override
minimum of 1, extended by a ticker for the unconfigured symbol XYZQ. -/
theorem convert_add_unconfigured_ticker_witness :
    ((∀ p ∈ dedupPairs [("p1", [CurrencyPair.mk "B" "USD"])], pairSymbol p ≠ "XYZQ") ∧
      convertTickersToUSD [("p1", [("BUSD", TickerPrice.mk 2 1 0)])]
        [("p1", [CurrencyPair.mk "B" "USD"])] [] [("B", 1)] = .ok [("B", 2)] ∧
      "B" ∈ ([("B", (2 : ℚ))].map (fun e => e.1))) ∧
    (∃ r', convertTickersToUSD
        ([("p1", [("BUSD", TickerPrice.mk 2 1 0)])] ++ [("px", [("XYZQ", TickerPrice.mk 5 1 0)])])
        [("p1", [CurrencyPair.mk "B" "USD"])] [] [("B", 1)] = .ok r' ∧
      "B" ∈ r'.map (fun e => e.1)) :=
  ⟨⟨by decide,
    by
      norm_num +decide [convertTickersToUSD, conversionLoop, runPass, processPair,
        mergeNewRates, addRates, reorderPairs, reorderFold, sortPairs, List.insertionSort,
        List.orderedInsert, pairLE, pairSymbol, dedupPairs, bySymbol, alookup, aset,
        FilterTickerDeviations, StandardDeviation, listMean, listVariance, isBetweenSq,
        vwapRate, ComputeVWAP, finalStep, finalStepEntry, finalVWAP, List.filterMap,
        List.filter],
    by simp⟩,
   convert_add_unconfigured_ticker
     [("p1", [("BUSD", TickerPrice.mk 2 1 0)])]
     [("p1", [CurrencyPair.mk "B" "USD"])] [] [("B", 1)]
     "px" "XYZQ" (TickerPrice.mk 5 1 0) "B" [("B", 2)]
     (by decide)
     (by
       norm_num +decide [convertTickersToUSD, conversionLoop, runPass, processPair,
         mergeNewRates, addRates, reorderPairs, reorderFold, sortPairs, List.insertionSort,
         List.orderedInsert, pairLE, pairSymbol, dedupPairs, bySymbol, alookup, aset,
         FilterTickerDeviations, StandardDeviation, listMean, listVariance, isBetweenSq,
         vwapRate, ComputeVWAP, finalStep, finalStepEntry, finalVWAP, List.filterMap,
         List.filter])
     (by simp)⟩
